import Mathlib

/-!
Shallow embedding of the line-buffering classifier from `src/buffer.rs`
(`LineBuffer`, `BufferResult`, and the two operations `add_line` and
`drain`), together with proofs of the specification claims about it.

The JSON parser (`serde_json::from_str`) is an external collaborator of
the classifier; following the spec, it is modelled as an abstract pure
function `parse : String → Option J` for an arbitrary type `J` of JSON
values. Partial operations of the source that can panic on an empty
buffer (`self.buffer[0]`, `Vec::remove(0)`) are modelled by returning
`Option`: a `none` result stands for a panic.
-/

namespace Jlif

/-- Enum `BufferResult` from `src/buffer.rs`, polymorphic in the JSON value
type `J` produced by the external parser. -/
inductive BufferResult (J : Type) where
  | Json : J → BufferResult J
  | Text : String → BufferResult J
  | Incomplete : List String → BufferResult J
deriving DecidableEq, Repr

/-- The `LineBuffer` struct: an ordered buffer of raw lines plus the
capacity `max_lines` fixed at construction. -/
structure LineBuffer where
  buffer : List String
  max_lines : Nat
deriving DecidableEq, Repr

/-- Constructor `LineBuffer::new`. -/
def LineBuffer.new (max_lines : Nat) : LineBuffer :=
  { buffer := [], max_lines := max_lines }

/-- The whitespace predicate backing Rust's `str::trim`
(`char::is_whitespace`), restricted to the ASCII whitespace characters
that occur in line-based input; working on `List Char` keeps every
string operation of the model kernel-computable. -/
def is_ws (c : Char) : Bool := c = ' ' || c = '\t' || c = '\r' || c = '\n'

/-- Embeds Rust's `str::trim`: remove leading and trailing whitespace. -/
def trim_chars (cs : List Char) : List Char :=
  ((cs.dropWhile is_ws).reverse.dropWhile is_ws).reverse

/-- Embeds Rust's `str::starts_with` with a character-predicate pattern:
true iff the text is nonempty and its first character satisfies `p`. -/
def startsWithPred (p : Char → Bool) (cs : List Char) : Bool :=
  match cs with
  | [] => false
  | c :: _ => p c

/-- Heuristic `LineBuffer::could_be_json_start`: the permissive JSON-start
heuristic, translated clause by clause from the Rust `match` cascade
(`starts_with` on a pattern string is `List.isPrefixOf` on the
character lists). -/
def could_be_json_start (line : String) : Bool :=
  let trimmed := trim_chars line.data
  if trimmed.isEmpty then
    false
  else if "\"".data.isPrefixOf trimmed || "\x7b".data.isPrefixOf trimmed ||
      "[".data.isPrefixOf trimmed then
    true
  else if "true".data.isPrefixOf trimmed || "false".data.isPrefixOf trimmed ||
      "null".data.isPrefixOf trimmed then
    true
  else if startsWithPred (fun c => c.isDigit || c = '-') trimmed then
    true
  else
    false

/-- The JSON-start heuristic exactly as the specification words it:
trim whitespace, empty means false, otherwise true iff the trimmed text
starts with a double quote, brace, bracket, one of the literals `true`,
`false`, `null`, an ASCII digit, or a minus sign. Stated separately from
`could_be_json_start` so their agreement can be proved. -/
def json_start_spec (line : String) : Bool :=
  let t := trim_chars line.data
  if t.isEmpty then
    false
  else
    "\"".data.isPrefixOf t || "\x7b".data.isPrefixOf t || "[".data.isPrefixOf t ||
    "true".data.isPrefixOf t || "false".data.isPrefixOf t || "null".data.isPrefixOf t ||
    (match t with
     | [] => false
     | c :: _ => c.isDigit || c = '-')

/-- The transient `BufferState` enum declared inside `add_line`. -/
inductive BufferState where
  | Accumulating
  | Draining
deriving DecidableEq, Repr

variable {J : Type}

/-- Method `LineBuffer::try_parse_buffer_segments`: attempt to parse the whole
buffer, lines joined with newline separators, as one JSON value. -/
def try_parse_buffer_segments (parse : String → Option J) (buffer : List String) :
    Option (J × Nat) :=
  match parse (String.intercalate "\n" buffer) with
  | some v => some (v, 0)
  | none => none

/-- The body of the `for end_idx in 1..=len` loop of
`try_parse_forward_segments`, as structural recursion on the number of
remaining candidate indices. -/
def forward_go (parse : String → Option J) (buffer : List String) :
    Nat → Nat → Option (J × Nat)
  | _, 0 => none
  | i, fuel + 1 =>
    match parse (String.intercalate "\n" (buffer.take i)) with
    | some v => some (v, i)
    | none => forward_go parse buffer (i + 1) fuel

/-- Method `LineBuffer::try_parse_forward_segments`: scan prefixes
`[0..1], [0..2], …` of the buffer, returning the first (smallest) prefix
that parses as one JSON value, together with its length. -/
def try_parse_forward_segments (parse : String → Option J) (buffer : List String) :
    Option (J × Nat) :=
  forward_go parse buffer 1 buffer.length

/-- The fix-point loop inside `LineBuffer::add_line`: one recursive call
per loop iteration that mutated the buffer. The returned pair is the
records emitted from this iteration on and the final buffer; `none`
models a panic. In the `Draining` arm the source first runs the forward
scan and then indexes `self.buffer[0]`; on an empty buffer the scan
(a loop over `1..=0`) cannot succeed, so the empty case is exactly the
indexing panic. Removing the first `end_idx` lines from `first :: rest`
is `rest.drop (end_idx - 1)` because a successful scan has
`end_idx ≥ 1`. -/
def add_line_loop (parse : String → Option J) (max_lines : Nat) :
    BufferState → List String → Option (List (BufferResult J) × List String)
  | BufferState.Accumulating, buffer =>
    match try_parse_buffer_segments parse buffer with
    | some (v, _) =>
      -- full buffer parsed: emit Json, clear; the emptied buffer ends the loop
      some ([BufferResult.Json v], [])
    | none =>
      if buffer.length ≥ max_lines then
        -- overflow: evict the oldest line as Text, switch to Draining
        match buffer with
        | [] => none
        | first :: rest =>
          if rest.isEmpty then
            some ([BufferResult.Text first], [])
          else
            match add_line_loop parse max_lines BufferState.Draining rest with
            | some (rs, b) => some (BufferResult.Text first :: rs, b)
            | none => none
      else
        match buffer with
        | [] => some ([], [])
        | [l] =>
          if could_be_json_start l then
            some ([BufferResult.Incomplete [l]], [l])
          else
            some ([BufferResult.Text l], [])
        | l₁ :: l₂ :: ls =>
          -- stable: nothing applies, append the Incomplete snapshot
          some ([BufferResult.Incomplete (l₁ :: l₂ :: ls)], l₁ :: l₂ :: ls)
  | BufferState.Draining, [] => none
  | BufferState.Draining, first :: rest =>
    match try_parse_forward_segments parse (first :: rest) with
    | some (v, end_idx) =>
      if (rest.drop (end_idx - 1)).isEmpty then
        some ([BufferResult.Json v], [])
      else
        match add_line_loop parse max_lines BufferState.Draining (rest.drop (end_idx - 1)) with
        | some (rs, b) => some (BufferResult.Json v :: rs, b)
        | none => none
    | none =>
      if could_be_json_start first then
        -- back to Accumulating without mutation: loop is stable
        some ([BufferResult.Incomplete (first :: rest)], first :: rest)
      else if rest.isEmpty then
        some ([BufferResult.Text first], [])
      else
        match add_line_loop parse max_lines BufferState.Draining rest with
        | some (rs, b) => some (BufferResult.Text first :: rs, b)
        | none => none
termination_by _ buffer => buffer.length
decreasing_by
  all_goals simp_wf
  all_goals try simp [List.length_drop]
  all_goals omega

/-- Method `LineBuffer::add_line` (the `submit` operation of the spec). -/
def add_line (parse : String → Option J) (lb : LineBuffer) (line : String) :
    Option (List (BufferResult J) × LineBuffer) :=
  if lb.buffer.isEmpty && !could_be_json_start line then
    some ([BufferResult.Text line], lb)
  else
    match add_line_loop parse lb.max_lines BufferState.Accumulating (lb.buffer ++ [line]) with
    | some (rs, b) => some (rs, { lb with buffer := b })
    | none => none

/-- The `while !self.buffer.is_empty()` loop of `LineBuffer::drain`,
returning the records emitted and the final buffer. -/
def drain_loop (parse : String → Option J) :
    (buffer : List String) → List (BufferResult J) × List String
  | [] => ([], [])
  | first :: rest =>
    match try_parse_forward_segments parse (first :: rest) with
    | some (v, end_idx) =>
      let r := drain_loop parse (rest.drop (end_idx - 1))
      (BufferResult.Json v :: r.1, r.2)
    | none =>
      let r := drain_loop parse rest
      (BufferResult.Text first :: r.1, r.2)
termination_by buffer => buffer.length
decreasing_by
  all_goals simp_wf
  all_goals try simp [List.length_drop]
  all_goals omega

/-- Method `LineBuffer::drain` (the `flush` operation of the spec). -/
def drain (parse : String → Option J) (lb : LineBuffer) :
    List (BufferResult J) × LineBuffer :=
  let r := drain_loop parse lb.buffer
  (r.1, { lb with buffer := r.2 })

/-- Instrumentation of `add_line_loop`: the sequence of buffer snapshots
observed at the start of each executed loop iteration, in order. It
recurses exactly where `add_line_loop` does. -/
def add_line_loop_trace (parse : String → Option J) (max_lines : Nat) :
    BufferState → List String → List (List String)
  | BufferState.Accumulating, buffer =>
    buffer ::
      (match try_parse_buffer_segments parse buffer with
       | some _ => []
       | none =>
         if buffer.length ≥ max_lines then
           match buffer with
           | [] => []
           | _ :: rest =>
             if rest.isEmpty then []
             else add_line_loop_trace parse max_lines BufferState.Draining rest
         else [])
  | BufferState.Draining, [] => [[]]
  | BufferState.Draining, first :: rest =>
    (first :: rest) ::
      (match try_parse_forward_segments parse (first :: rest) with
       | some (_, end_idx) =>
         if (rest.drop (end_idx - 1)).isEmpty then []
         else add_line_loop_trace parse max_lines BufferState.Draining (rest.drop (end_idx - 1))
       | none =>
         if could_be_json_start first then []
         else if rest.isEmpty then []
         else add_line_loop_trace parse max_lines BufferState.Draining rest)
termination_by _ buffer => buffer.length
decreasing_by
  all_goals simp_wf
  all_goals try simp [List.length_drop]
  all_goals omega

/-- Instrumentation of `drain_loop`: the buffer snapshots at the start
of each iteration of the `while` loop of `drain`. -/
def drain_loop_trace (parse : String → Option J) : List String → List (List String)
  | [] => []
  | first :: rest =>
    (first :: rest) ::
      (match try_parse_forward_segments parse (first :: rest) with
       | some (_, end_idx) => drain_loop_trace parse (rest.drop (end_idx - 1))
       | none => drain_loop_trace parse rest)
termination_by buffer => buffer.length
decreasing_by
  all_goals simp_wf
  all_goals try simp [List.length_drop]
  all_goals omega

/-- The driving loop of the spec restricted to `submit`: feed each line
in turn to `add_line`, collecting every record produced. -/
def run_stream (parse : String → Option J) (lb : LineBuffer) :
    List String → Option (List (BufferResult J) × LineBuffer)
  | [] => some ([], lb)
  | l :: ls =>
    match add_line parse lb l with
    | some (rs, lb') =>
      match run_stream parse lb' ls with
      | some (rs', lb'') => some (rs ++ rs', lb'')
      | none => none
    | none => none

/-- The full driving loop of the spec: `submit` every line, then `flush`
once at end of input, concatenating all records in order. -/
def process_stream (parse : String → Option J) (cap : Nat) (lines : List String) :
    Option (List (BufferResult J)) :=
  match run_stream parse (LineBuffer.new cap) lines with
  | some (rs, lb) => some (rs ++ (drain parse lb).1)
  | none => none

/-- Whether a record is a final (`Json`/`Text`) record, as opposed to an
`Incomplete` snapshot that the driving loop never forwards to output. -/
def is_final : BufferResult J → Bool
  | BufferResult.Incomplete _ => false
  | _ => true

/-! ### Concrete instances for the witnesses -/

/-- A parser that rejects everything. -/
def parse_none : String → Option Nat := fun _ => none

/-- A parser that accepts exactly the three-line object of the C3
scenario. -/
def parse_abc : String → Option Nat :=
  fun s => if s = "\x7b\n\"a\":1\n\x7d" then some 0 else none

/-- A parser that accepts exactly the line `x`. -/
def parse_x : String → Option Nat :=
  fun s => if s = "x" then some 0 else none

/-! ### Properties of the forward scan -/

theorem forward_go_bounds (parse : String → Option J) (buffer : List String) :
    ∀ fuel i v e, forward_go parse buffer i fuel = some (v, e) →
      i ≤ e ∧ e < i + fuel := by
  intro fuel
  induction fuel with
  | zero => intro i v e h; simp [forward_go] at h
  | succ n ih =>
    intro i v e h
    rw [forward_go] at h
    cases hp : parse (String.intercalate "\n" (buffer.take i)) with
    | some v' => rw [hp] at h; simp at h; omega
    | none =>
      rw [hp] at h
      have := ih (i + 1) v e h
      omega

theorem forward_go_some_spec (parse : String → Option J) (buffer : List String) :
    ∀ fuel i v e, forward_go parse buffer i fuel = some (v, e) →
      parse (String.intercalate "\n" (buffer.take e)) = some v ∧
      ∀ j, i ≤ j → j < e → parse (String.intercalate "\n" (buffer.take j)) = none := by
  intro fuel
  induction fuel with
  | zero => intro i v e h; simp [forward_go] at h
  | succ n ih =>
    intro i v e h
    rw [forward_go] at h
    cases hp : parse (String.intercalate "\n" (buffer.take i)) with
    | some v' =>
      rw [hp] at h
      simp at h
      obtain ⟨hv, he⟩ := h
      subst hv; subst he
      exact ⟨hp, fun j h1 h2 => absurd (le_antisymm (Nat.le_of_lt_succ (Nat.lt_succ_of_lt h2)) h1 ▸ h1) (by omega)⟩
    | none =>
      rw [hp] at h
      obtain ⟨hpar, hmin⟩ := ih (i + 1) v e h
      refine ⟨hpar, fun j h1 h2 => ?_⟩
      rcases Nat.eq_or_lt_of_le h1 with heq | hlt
      · exact heq ▸ hp
      · exact hmin j hlt h2

theorem forward_go_none_spec (parse : String → Option J) (buffer : List String) :
    ∀ fuel i, forward_go parse buffer i fuel = none →
      ∀ j, i ≤ j → j < i + fuel → parse (String.intercalate "\n" (buffer.take j)) = none := by
  intro fuel
  induction fuel with
  | zero => intro i _ j h1 h2; omega
  | succ n ih =>
    intro i h j h1 h2
    rw [forward_go] at h
    cases hp : parse (String.intercalate "\n" (buffer.take i)) with
    | some v' => rw [hp] at h; simp at h
    | none =>
      rw [hp] at h
      rcases Nat.eq_or_lt_of_le h1 with heq | hlt
      · exact heq ▸ hp
      · exact ih (i + 1) h j hlt (by omega)

theorem try_parse_forward_segments_bounds (parse : String → Option J)
    (buffer : List String) (v : J) (e : Nat)
    (h : try_parse_forward_segments parse buffer = some (v, e)) :
    1 ≤ e ∧ e ≤ buffer.length := by
  have := forward_go_bounds parse buffer buffer.length 1 v e h
  omega

theorem try_parse_forward_segments_empty (parse : String → Option J) :
    try_parse_forward_segments parse [] = none := rfl

/-! ### Properties of the add_line fix-point loop -/

theorem add_line_loop_isSome (parse : String → Option J) (cap : Nat) :
    ∀ (st : BufferState) (buffer : List String), buffer ≠ [] →
      (add_line_loop parse cap st buffer).isSome := by
  intro st buffer
  induction st, buffer using add_line_loop.induct parse cap with
  | _ =>
    intro hne
    try obtain ⟨f, r, rfl⟩ := List.exists_cons_of_ne_nil hne
    try simp_all [add_line_loop.eq_1, add_line_loop.eq_2, add_line_loop.eq_3,
      add_line_loop.eq_4, List.isEmpty_iff, List.drop_eq_nil_iff]
    try (split <;>
      first
        | omega
        | simp_all [List.drop_eq_nil_iff]
        | (simp_all [List.drop_eq_nil_iff]; omega))
    try omega

theorem add_line_loop_drain_le (parse : String → Option J) (cap : Nat) :
    ∀ (st : BufferState) (buffer : List String), st = BufferState.Draining →
      ∀ rs b', add_line_loop parse cap st buffer = some (rs, b') →
        b'.length ≤ buffer.length := by
  intro st buffer
  induction st, buffer using add_line_loop.induct parse cap with
  | case12 first rest v snd hfs hdrop rs0 b0 hrec ih =>
    intro _ rs b' heq
    rw [add_line_loop.eq_4] at heq
    simp only [hfs] at heq
    rw [if_neg hdrop] at heq
    simp only [hrec, Option.some.injEq, Prod.mk.injEq] at heq
    obtain ⟨-, hb⟩ := heq
    subst hb
    have hle := ih rfl rs0 b0 hrec
    have hd : (List.drop (snd - 1) rest).length = rest.length - (snd - 1) :=
      List.length_drop _ _
    simp only [List.length_cons]
    omega
  | case16 first rest hfs hj hre rs0 b0 hrec ih =>
    intro _ rs b' heq
    rw [add_line_loop.eq_4] at heq
    simp only [hfs] at heq
    rw [if_neg hj, if_neg hre] at heq
    simp only [hrec, Option.some.injEq, Prod.mk.injEq] at heq
    obtain ⟨-, hb⟩ := heq
    subst hb
    have hle := ih rfl rs0 b0 hrec
    simp only [List.length_cons]
    omega
  | _ =>
    intro hst rs b' heq
    try simp at hst
    try simp_all [add_line_loop.eq_3, add_line_loop.eq_4, List.isEmpty_iff,
      List.drop_eq_nil_iff, List.length_drop]
    try omega

theorem add_line_loop_acc_sizes (parse : String → Option J) (cap : Nat)
    (buffer : List String) (hne : buffer ≠ []) (rs : List (BufferResult J))
    (b' : List String)
    (heq : add_line_loop parse cap BufferState.Accumulating buffer = some (rs, b')) :
    b'.length < cap ∨ b'.length < buffer.length := by
  obtain ⟨first, rest, rfl⟩ := List.exists_cons_of_ne_nil hne
  rw [add_line_loop.eq_2] at heq
  cases hp : try_parse_buffer_segments parse (first :: rest) with
  | some p =>
    obtain ⟨v, k⟩ := p
    simp only [hp, Option.some.injEq, Prod.mk.injEq] at heq
    obtain ⟨-, hb⟩ := heq
    subst hb
    right; simp
  | none =>
    simp only [hp] at heq
    by_cases hc : (first :: rest).length ≥ cap
    · rw [if_pos hc] at heq
      by_cases hre : rest.isEmpty
      · rw [if_pos hre] at heq
        simp only [Option.some.injEq, Prod.mk.injEq] at heq
        obtain ⟨-, hb⟩ := heq
        subst hb
        right; simp
      · rw [if_neg hre] at heq
        cases hrec : add_line_loop parse cap BufferState.Draining rest with
        | none => simp only [hrec] at heq; cases heq
        | some p =>
          obtain ⟨rs0, b0⟩ := p
          simp only [hrec, Option.some.injEq, Prod.mk.injEq] at heq
          obtain ⟨-, hb⟩ := heq
          subst hb
          have hle := add_line_loop_drain_le parse cap BufferState.Draining rest rfl
            rs0 b0 hrec
          right
          simp only [List.length_cons]
          omega
    · rw [if_neg hc] at heq
      cases rest with
      | nil =>
        simp only [] at heq
        by_cases hj : could_be_json_start first
        · rw [if_pos hj] at heq
          simp only [Option.some.injEq, Prod.mk.injEq] at heq
          obtain ⟨-, hb⟩ := heq
          subst hb
          left
          simp only [List.length_cons, List.length_nil] at hc ⊢
          omega
        · rw [if_neg hj] at heq
          simp only [Option.some.injEq, Prod.mk.injEq] at heq
          obtain ⟨-, hb⟩ := heq
          subst hb
          right; simp
      | cons l₂ ls =>
        simp only [List.cons.injEq, Option.some.injEq, Prod.mk.injEq] at heq
        obtain ⟨-, hb⟩ := heq
        subst hb
        left
        omega

/-- Shape of the records returned by the fix-point loop: an `Incomplete`
record appears exactly when the final buffer is non-empty, and then it is
unique, last, and carries the final buffer as its snapshot. -/
theorem add_line_loop_incomplete_shape (parse : String → Option J) (cap : Nat) :
    ∀ (st : BufferState) (buffer : List String), buffer ≠ [] →
      ∀ rs b', add_line_loop parse cap st buffer = some (rs, b') →
        (b' = [] ∧ ∀ s, BufferResult.Incomplete s ∉ rs) ∨
        (b' ≠ [] ∧ ∃ rs₀, rs = rs₀ ++ [BufferResult.Incomplete b'] ∧
          ∀ s, BufferResult.Incomplete s ∉ rs₀) := by
  intro st buffer
  induction st, buffer using add_line_loop.induct parse cap with
  | case1 buffer v snd hp =>
    intro hne rs b' heq
    obtain ⟨f, r, rfl⟩ := List.exists_cons_of_ne_nil hne
    rw [add_line_loop.eq_2] at heq
    simp only [hp, Option.some.injEq, Prod.mk.injEq] at heq
    obtain ⟨h1, h2⟩ := heq
    subst h1; subst h2
    left; simp
  | case2 hp hlen => intro hne; exact absurd rfl hne
  | case3 first rest hre hp hlen =>
    intro hne rs b' heq
    rw [add_line_loop.eq_2] at heq
    simp only [hp, if_pos hlen, if_pos hre, Option.some.injEq, Prod.mk.injEq] at heq
    obtain ⟨h1, h2⟩ := heq
    subst h1; subst h2
    left; simp
  | case4 first rest hre rs0 b0 hrec hp hlen ih =>
    intro hne rs b' heq
    rw [add_line_loop.eq_2] at heq
    simp only [hp, if_pos hlen, if_neg hre, hrec, Option.some.injEq,
      Prod.mk.injEq] at heq
    obtain ⟨h1, h2⟩ := heq
    subst h1; subst h2
    have hrest : rest ≠ [] := by
      intro h; rw [h] at hre; exact hre rfl
    rcases ih hrest rs0 b0 hrec with ⟨hb, hni⟩ | ⟨hb, rs1, hsplit, hni⟩
    · left
      refine ⟨hb, fun s hs => ?_⟩
      rcases List.mem_cons.mp hs with h | h
      · cases h
      · exact hni s h
    · right
      refine ⟨hb, BufferResult.Text first :: rs1, by rw [hsplit]; rfl, fun s hs => ?_⟩
      rcases List.mem_cons.mp hs with h | h
      · cases h
      · exact hni s h
  | case5 first rest hre hrec hp hlen ih =>
    intro hne rs b' heq
    rw [add_line_loop.eq_2] at heq
    simp only [hp, if_pos hlen, if_neg hre, hrec] at heq
    simp at heq
  | case6 hp hlen => intro hne; exact absurd rfl hne
  | case7 l hj hp hlen =>
    intro hne rs b' heq
    rw [add_line_loop.eq_2] at heq
    simp only [hp, if_neg hlen, if_pos hj, Option.some.injEq, Prod.mk.injEq] at heq
    obtain ⟨h1, h2⟩ := heq
    subst h1; subst h2
    right
    exact ⟨by simp, [], rfl, by simp⟩
  | case8 l hj hp hlen =>
    intro hne rs b' heq
    rw [add_line_loop.eq_2] at heq
    simp only [hp, if_neg hlen, if_neg hj, Option.some.injEq, Prod.mk.injEq] at heq
    obtain ⟨h1, h2⟩ := heq
    subst h1; subst h2
    left; simp
  | case9 l₁ l₂ ls hp hlen =>
    intro hne rs b' heq
    rw [add_line_loop.eq_2] at heq
    simp only [hp, if_neg hlen, Option.some.injEq, Prod.mk.injEq] at heq
    obtain ⟨h1, h2⟩ := heq
    subst h1; subst h2
    right
    exact ⟨by simp, [], rfl, by simp⟩
  | case10 => intro hne; exact absurd rfl hne
  | case11 first rest v snd hfs hdrop =>
    intro hne rs b' heq
    rw [add_line_loop.eq_4] at heq
    simp only [hfs, if_pos hdrop, Option.some.injEq, Prod.mk.injEq] at heq
    obtain ⟨h1, h2⟩ := heq
    subst h1; subst h2
    left; simp
  | case12 first rest v snd hfs hdrop rs0 b0 hrec ih =>
    intro hne rs b' heq
    rw [add_line_loop.eq_4] at heq
    simp only [hfs, if_neg hdrop, hrec, Option.some.injEq, Prod.mk.injEq] at heq
    obtain ⟨h1, h2⟩ := heq
    subst h1; subst h2
    have hrest : List.drop (snd - 1) rest ≠ [] := by
      intro h; rw [h] at hdrop; exact hdrop rfl
    rcases ih hrest rs0 b0 hrec with ⟨hb, hni⟩ | ⟨hb, rs1, hsplit, hni⟩
    · left
      refine ⟨hb, fun s hs => ?_⟩
      rcases List.mem_cons.mp hs with h | h
      · cases h
      · exact hni s h
    · right
      refine ⟨hb, BufferResult.Json v :: rs1, by rw [hsplit]; rfl, fun s hs => ?_⟩
      rcases List.mem_cons.mp hs with h | h
      · cases h
      · exact hni s h
  | case13 first rest v snd hfs hdrop hrec ih =>
    intro hne rs b' heq
    rw [add_line_loop.eq_4] at heq
    simp only [hfs, if_neg hdrop, hrec] at heq
    simp at heq
  | case14 first rest hfs hj =>
    intro hne rs b' heq
    rw [add_line_loop.eq_4] at heq
    simp only [hfs, if_pos hj, Option.some.injEq, Prod.mk.injEq] at heq
    obtain ⟨h1, h2⟩ := heq
    subst h1; subst h2
    right
    exact ⟨by simp, [], rfl, by simp⟩
  | case15 first rest hfs hj hre =>
    intro hne rs b' heq
    rw [add_line_loop.eq_4] at heq
    simp only [hfs, if_neg hj, if_pos hre, Option.some.injEq, Prod.mk.injEq] at heq
    obtain ⟨h1, h2⟩ := heq
    subst h1; subst h2
    left; simp
  | case16 first rest hfs hj hre rs0 b0 hrec ih =>
    intro hne rs b' heq
    rw [add_line_loop.eq_4] at heq
    simp only [hfs, if_neg hj, if_neg hre, hrec, Option.some.injEq,
      Prod.mk.injEq] at heq
    obtain ⟨h1, h2⟩ := heq
    subst h1; subst h2
    have hrest : rest ≠ [] := by
      intro h; rw [h] at hre; exact hre rfl
    rcases ih hrest rs0 b0 hrec with ⟨hb, hni⟩ | ⟨hb, rs1, hsplit, hni⟩
    · left
      refine ⟨hb, fun s hs => ?_⟩
      rcases List.mem_cons.mp hs with h | h
      · cases h
      · exact hni s h
    · right
      refine ⟨hb, BufferResult.Text first :: rs1, by rw [hsplit]; rfl, fun s hs => ?_⟩
      rcases List.mem_cons.mp hs with h | h
      · cases h
      · exact hni s h
  | case17 first rest hfs hj hre hrec ih =>
    intro hne rs b' heq
    rw [add_line_loop.eq_4] at heq
    simp only [hfs, if_neg hj, if_neg hre, hrec] at heq
    simp at heq

/-! ### Properties of the loop iteration traces -/

theorem add_line_loop_trace_head (parse : String → Option J) (cap : Nat)
    (st : BufferState) (buffer : List String) :
    ∃ t, add_line_loop_trace parse cap st buffer = buffer :: t := by
  cases st with
  | Accumulating =>
    cases buffer with
    | nil => exact ⟨_, add_line_loop_trace.eq_1 parse cap⟩
    | cons f r => exact ⟨_, add_line_loop_trace.eq_2 parse cap f r⟩
  | Draining =>
    cases buffer with
    | nil => exact ⟨[], add_line_loop_trace.eq_3 parse cap⟩
    | cons f r => exact ⟨_, add_line_loop_trace.eq_4 parse cap f r⟩

theorem add_line_loop_trace_mem (parse : String → Option J) (cap : Nat) :
    ∀ (st : BufferState) (buffer : List String) (b : List String),
      b ∈ add_line_loop_trace parse cap st buffer →
      b = buffer ∨ b.length < buffer.length := by
  intro st buffer
  induction st, buffer using add_line_loop.induct parse cap with
  | case4 first rest hre rs0 b0 hrec hp hlen ih =>
    intro b hb
    rw [add_line_loop_trace.eq_2] at hb
    simp only [hp, if_pos hlen, if_neg hre] at hb
    rcases List.mem_cons.mp hb with h | h
    · left; exact h
    · right
      rcases ih b h with rfl | h2 <;> simp only [List.length_cons] <;> omega
  | case5 first rest hre hrec hp hlen ih =>
    intro b hb
    rw [add_line_loop_trace.eq_2] at hb
    simp only [hp, if_pos hlen, if_neg hre] at hb
    rcases List.mem_cons.mp hb with h | h
    · left; exact h
    · right
      rcases ih b h with rfl | h2 <;> simp only [List.length_cons] <;> omega
  | case12 first rest v snd hfs hdrop rs0 b0 hrec ih =>
    intro b hb
    rw [add_line_loop_trace.eq_4] at hb
    simp only [hfs, if_neg hdrop] at hb
    rcases List.mem_cons.mp hb with h | h
    · left; exact h
    · right
      have hd : (List.drop (snd - 1) rest).length = rest.length - (snd - 1) :=
        List.length_drop _ _
      rcases ih b h with rfl | h2 <;> simp only [List.length_cons] <;> omega
  | case13 first rest v snd hfs hdrop hrec ih =>
    intro b hb
    rw [add_line_loop_trace.eq_4] at hb
    simp only [hfs, if_neg hdrop] at hb
    rcases List.mem_cons.mp hb with h | h
    · left; exact h
    · right
      have hd : (List.drop (snd - 1) rest).length = rest.length - (snd - 1) :=
        List.length_drop _ _
      rcases ih b h with rfl | h2 <;> simp only [List.length_cons] <;> omega
  | case16 first rest hfs hj hre rs0 b0 hrec ih =>
    intro b hb
    rw [add_line_loop_trace.eq_4] at hb
    simp only [hfs, if_neg hj, if_neg hre] at hb
    rcases List.mem_cons.mp hb with h | h
    · left; exact h
    · right
      rcases ih b h with rfl | h2 <;> simp only [List.length_cons] <;> omega
  | case17 first rest hfs hj hre hrec ih =>
    intro b hb
    rw [add_line_loop_trace.eq_4] at hb
    simp only [hfs, if_neg hj, if_neg hre] at hb
    rcases List.mem_cons.mp hb with h | h
    · left; exact h
    · right
      rcases ih b h with rfl | h2 <;> simp only [List.length_cons] <;> omega
  | case9 l₁ l₂ ls hp hlen =>
    intro b hb
    rw [add_line_loop_trace.eq_2] at hb
    simp only [hp, if_neg hlen] at hb
    simp at hb
    left; exact hb
  | case1 buffer v snd hp =>
    intro b hb
    cases buffer with
    | nil =>
      rw [add_line_loop_trace.eq_1] at hb
      simp only [hp] at hb
      simp at hb
      left; exact hb
    | cons f r =>
      rw [add_line_loop_trace.eq_2] at hb
      simp only [hp] at hb
      simp at hb
      left; exact hb
  | _ =>
    intro b hb
    try rw [add_line_loop_trace.eq_1] at hb
    try rw [add_line_loop_trace.eq_2] at hb
    try rw [add_line_loop_trace.eq_3] at hb
    try rw [add_line_loop_trace.eq_4] at hb
    simp_all

theorem add_line_loop_trace_chain (parse : String → Option J) (cap : Nat) :
    ∀ (st : BufferState) (buffer : List String),
      List.Chain' (fun a b => b.length < a.length)
        (add_line_loop_trace parse cap st buffer) := by
  intro st buffer
  induction st, buffer using add_line_loop.induct parse cap with
  | case4 first rest hre rs0 b0 hrec hp hlen ih =>
    rw [add_line_loop_trace.eq_2]
    simp only [hp, if_pos hlen, if_neg hre]
    refine List.chain'_cons'.mpr ⟨?_, ih⟩
    intro y hy
    obtain ⟨t, ht⟩ := add_line_loop_trace_head parse cap BufferState.Draining rest
    rw [ht] at hy
    simp at hy
    subst hy
    simp
  | case5 first rest hre hrec hp hlen ih =>
    rw [add_line_loop_trace.eq_2]
    simp only [hp, if_pos hlen, if_neg hre]
    refine List.chain'_cons'.mpr ⟨?_, ih⟩
    intro y hy
    obtain ⟨t, ht⟩ := add_line_loop_trace_head parse cap BufferState.Draining rest
    rw [ht] at hy
    simp at hy
    subst hy
    simp
  | case12 first rest v snd hfs hdrop rs0 b0 hrec ih =>
    rw [add_line_loop_trace.eq_4]
    simp only [hfs, if_neg hdrop]
    refine List.chain'_cons'.mpr ⟨?_, ih⟩
    intro y hy
    obtain ⟨t, ht⟩ :=
      add_line_loop_trace_head parse cap BufferState.Draining (List.drop (snd - 1) rest)
    rw [ht] at hy
    simp at hy
    subst hy
    have hd : (List.drop (snd - 1) rest).length = rest.length - (snd - 1) :=
      List.length_drop _ _
    simp only [List.length_cons]
    omega
  | case13 first rest v snd hfs hdrop hrec ih =>
    rw [add_line_loop_trace.eq_4]
    simp only [hfs, if_neg hdrop]
    refine List.chain'_cons'.mpr ⟨?_, ih⟩
    intro y hy
    obtain ⟨t, ht⟩ :=
      add_line_loop_trace_head parse cap BufferState.Draining (List.drop (snd - 1) rest)
    rw [ht] at hy
    simp at hy
    subst hy
    have hd : (List.drop (snd - 1) rest).length = rest.length - (snd - 1) :=
      List.length_drop _ _
    simp only [List.length_cons]
    omega
  | case16 first rest hfs hj hre rs0 b0 hrec ih =>
    rw [add_line_loop_trace.eq_4]
    simp only [hfs, if_neg hj, if_neg hre]
    refine List.chain'_cons'.mpr ⟨?_, ih⟩
    intro y hy
    obtain ⟨t, ht⟩ := add_line_loop_trace_head parse cap BufferState.Draining rest
    rw [ht] at hy
    simp at hy
    subst hy
    simp
  | case17 first rest hfs hj hre hrec ih =>
    rw [add_line_loop_trace.eq_4]
    simp only [hfs, if_neg hj, if_neg hre]
    refine List.chain'_cons'.mpr ⟨?_, ih⟩
    intro y hy
    obtain ⟨t, ht⟩ := add_line_loop_trace_head parse cap BufferState.Draining rest
    rw [ht] at hy
    simp at hy
    subst hy
    simp
  | case9 l₁ l₂ ls hp hlen =>
    rw [add_line_loop_trace.eq_2]
    simp only [hp, if_neg hlen]
    simp
  | case1 buffer v snd hp =>
    cases buffer with
    | nil =>
      rw [add_line_loop_trace.eq_1]
      simp [hp]
    | cons f r =>
      rw [add_line_loop_trace.eq_2]
      simp [hp]
  | _ =>
    try rw [add_line_loop_trace.eq_1]
    try rw [add_line_loop_trace.eq_2]
    try rw [add_line_loop_trace.eq_3]
    try rw [add_line_loop_trace.eq_4]
    simp_all

theorem add_line_loop_trace_length (parse : String → Option J) (cap : Nat) :
    ∀ (st : BufferState) (buffer : List String),
      (add_line_loop_trace parse cap st buffer).length ≤ buffer.length + 1 := by
  intro st buffer
  induction st, buffer using add_line_loop.induct parse cap with
  | case4 first rest hre rs0 b0 hrec hp hlen ih =>
    rw [add_line_loop_trace.eq_2]
    simp only [hp]
    rw [if_pos hlen, if_neg hre]
    simp only [List.length_cons] at ih ⊢
    omega
  | case5 first rest hre hrec hp hlen ih =>
    rw [add_line_loop_trace.eq_2]
    simp only [hp]
    rw [if_pos hlen, if_neg hre]
    simp only [List.length_cons] at ih ⊢
    omega
  | case9 l₁ l₂ ls hp hlen =>
    rw [add_line_loop_trace.eq_2]
    simp only [hp]
    rw [if_neg hlen]
    simp
  | case12 first rest v snd hfs hdrop rs0 b0 hrec ih =>
    rw [add_line_loop_trace.eq_4]
    simp only [hfs]
    rw [if_neg hdrop]
    have hd : (List.drop (snd - 1) rest).length = rest.length - (snd - 1) :=
      List.length_drop _ _
    simp only [List.length_cons] at ih ⊢
    omega
  | case13 first rest v snd hfs hdrop hrec ih =>
    rw [add_line_loop_trace.eq_4]
    simp only [hfs]
    rw [if_neg hdrop]
    have hd : (List.drop (snd - 1) rest).length = rest.length - (snd - 1) :=
      List.length_drop _ _
    simp only [List.length_cons] at ih ⊢
    omega
  | case16 first rest hfs hj hre rs0 b0 hrec ih =>
    rw [add_line_loop_trace.eq_4]
    simp only [hfs]
    rw [if_neg hj, if_neg hre]
    simp only [List.length_cons] at ih ⊢
    omega
  | case17 first rest hfs hj hre hrec ih =>
    rw [add_line_loop_trace.eq_4]
    simp only [hfs]
    rw [if_neg hj, if_neg hre]
    simp only [List.length_cons] at ih ⊢
    omega
  | case1 buffer v snd hp =>
    cases buffer with
    | nil =>
      rw [add_line_loop_trace.eq_1]
      simp [hp]
    | cons f r =>
      rw [add_line_loop_trace.eq_2]
      simp [hp]
  | _ =>
    try rw [add_line_loop_trace.eq_1]
    try rw [add_line_loop_trace.eq_2]
    try rw [add_line_loop_trace.eq_3]
    try rw [add_line_loop_trace.eq_4]
    simp_all

theorem drain_loop_trace_head (parse : String → Option J) (first : String)
    (rest : List String) :
    ∃ t, drain_loop_trace parse (first :: rest) = (first :: rest) :: t :=
  ⟨_, drain_loop_trace.eq_2 parse first rest⟩

theorem drain_loop_trace_chain (parse : String → Option J) :
    ∀ buffer : List String,
      List.Chain' (fun a b => b.length < a.length) (drain_loop_trace parse buffer) := by
  intro buffer
  induction buffer using drain_loop_trace.induct parse with
  | case1 => rw [drain_loop_trace.eq_1]; exact List.chain'_nil
  | case2 first rest ih1 ih2 =>
    rw [drain_loop_trace.eq_2]
    cases hfs : try_parse_forward_segments parse (first :: rest) with
    | some p =>
      obtain ⟨v, e⟩ := p
      simp only
      refine List.chain'_cons'.mpr ⟨?_, ih1 e⟩
      intro y hy
      cases hd : List.drop (e - 1) rest with
      | nil => rw [hd, drain_loop_trace.eq_1] at hy; simp at hy
      | cons d ds =>
        obtain ⟨t, ht⟩ := drain_loop_trace_head parse d ds
        rw [hd, ht] at hy
        simp at hy
        subst hy
        have hlen : (List.drop (e - 1) rest).length = rest.length - (e - 1) :=
          List.length_drop _ _
        rw [hd] at hlen
        simp only [List.length_cons] at hlen ⊢
        omega
    | none =>
      simp only
      refine List.chain'_cons'.mpr ⟨?_, ih2⟩
      intro y hy
      cases rest with
      | nil => rw [drain_loop_trace.eq_1] at hy; simp at hy
      | cons d ds =>
        obtain ⟨t, ht⟩ := drain_loop_trace_head parse d ds
        rw [ht] at hy
        simp at hy
        subst hy
        simp

theorem drain_loop_trace_length (parse : String → Option J) :
    ∀ buffer : List String,
      (drain_loop_trace parse buffer).length ≤ buffer.length := by
  intro buffer
  induction buffer using drain_loop_trace.induct parse with
  | case1 => rw [drain_loop_trace.eq_1]; simp
  | case2 first rest ih1 ih2 =>
    rw [drain_loop_trace.eq_2]
    cases hfs : try_parse_forward_segments parse (first :: rest) with
    | some p =>
      obtain ⟨v, e⟩ := p
      simp only [hfs, List.length_cons]
      have hlen : (List.drop (e - 1) rest).length = rest.length - (e - 1) :=
        List.length_drop _ _
      have := ih1 e
      omega
    | none =>
      simp only [hfs, List.length_cons]
      have := ih2
      omega

/-! ### Properties of drain -/

theorem drain_loop_snd_nil (parse : String → Option J) :
    ∀ buffer : List String, (drain_loop parse buffer).2 = [] := by
  intro buffer
  induction buffer using drain_loop.induct parse with
  | case1 => rw [drain_loop.eq_1]
  | case2 first rest v snd hfs ih =>
    rw [drain_loop.eq_2]
    simp only [hfs]
    exact ih
  | case3 first rest hfs ih =>
    rw [drain_loop.eq_2]
    simp only [hfs]
    exact ih

theorem drain_loop_no_incomplete (parse : String → Option J) :
    ∀ (buffer : List String) (s : List String),
      BufferResult.Incomplete s ∉ (drain_loop parse buffer).1 := by
  intro buffer
  induction buffer using drain_loop.induct parse with
  | case1 => intro s; rw [drain_loop.eq_1]; simp
  | case2 first rest v snd hfs ih =>
    intro s hs
    rw [drain_loop.eq_2] at hs
    simp only [hfs] at hs
    rcases List.mem_cons.mp hs with h | h
    · cases h
    · exact ih s h
  | case3 first rest hfs ih =>
    intro s hs
    rw [drain_loop.eq_2] at hs
    simp only [hfs] at hs
    rcases List.mem_cons.mp hs with h | h
    · cases h
    · exact ih s h

/-! ### Properties of add_line and the driving loop -/

theorem add_line_inv (parse : String → Option J) (lb : LineBuffer) (line : String)
    (hlen : lb.buffer.length ≤ lb.max_lines) (rs : List (BufferResult J))
    (lb' : LineBuffer) (h : add_line parse lb line = some (rs, lb')) :
    lb'.buffer.length ≤ lb.max_lines ∧ lb'.max_lines = lb.max_lines := by
  unfold add_line at h
  by_cases hc : (lb.buffer.isEmpty && !could_be_json_start line) = true
  · rw [if_pos hc] at h
    simp only [Option.some.injEq, Prod.mk.injEq] at h
    obtain ⟨-, h2⟩ := h
    subst h2
    exact ⟨hlen, rfl⟩
  · rw [if_neg hc] at h
    cases hl : add_line_loop parse lb.max_lines BufferState.Accumulating
        (lb.buffer ++ [line]) with
    | none => simp only [hl] at h; cases h
    | some p =>
      obtain ⟨rs0, b⟩ := p
      simp only [hl, Option.some.injEq, Prod.mk.injEq] at h
      obtain ⟨-, h2⟩ := h
      subst h2
      have hne : lb.buffer ++ [line] ≠ [] := by simp
      have hsz := add_line_loop_acc_sizes parse lb.max_lines (lb.buffer ++ [line])
        hne rs0 b hl
      refine ⟨?_, rfl⟩
      show b.length ≤ lb.max_lines
      simp only [List.length_append, List.length_cons, List.length_nil] at hsz
      rcases hsz with h | h <;> omega

theorem run_stream_inv (parse : String → Option J) :
    ∀ (lines : List String) (lb : LineBuffer) (out : List (BufferResult J))
      (lb' : LineBuffer),
      lb.buffer.length ≤ lb.max_lines →
      run_stream parse lb lines = some (out, lb') →
      lb'.buffer.length ≤ lb.max_lines ∧ lb'.max_lines = lb.max_lines := by
  intro lines
  induction lines with
  | nil =>
    intro lb out lb' h1 h2
    simp only [run_stream, Option.some.injEq, Prod.mk.injEq] at h2
    obtain ⟨-, h2⟩ := h2
    subst h2
    exact ⟨h1, rfl⟩
  | cons l ls ih =>
    intro lb out lb' h1 h2
    simp only [run_stream] at h2
    cases ha : add_line parse lb l with
    | none => simp only [ha] at h2; cases h2
    | some p =>
      obtain ⟨rs0, lb0⟩ := p
      simp only [ha] at h2
      cases hr : run_stream parse lb0 ls with
      | none => simp only [hr] at h2; cases h2
      | some q =>
        obtain ⟨rs1, lb1⟩ := q
        simp only [hr, Option.some.injEq, Prod.mk.injEq] at h2
        obtain ⟨-, h2⟩ := h2
        subst h2
        have hinv := add_line_inv parse lb l h1 rs0 lb0 ha
        have h3 : lb0.buffer.length ≤ lb0.max_lines := by
          rw [hinv.2]; exact hinv.1
        have hrec := ih lb0 rs1 lb1 h3 hr
        refine ⟨?_, ?_⟩
        · rw [← hinv.2]; exact hrec.1
        · rw [hrec.2, hinv.2]

/-! ### The claims -/

/-- Claim C1: for every capacity ≥ 1 and every sequence of submitted
lines, the buffer length observed at the start of any submit call (the
final buffer after any prefix of submits from a fresh buffer) never
exceeds the capacity; and within the next call, every buffer snapshot
seen by the fix-point loop has length at most capacity + 1, with
capacity + 1 possible only for the very first snapshot — the freshly
pushed buffer immediately before that iteration's eviction. -/
theorem claim_C1_capacity_invariant (parse : String → Option J) (cap : Nat)
    (hcap : 1 ≤ cap) (lines : List String) (out : List (BufferResult J))
    (lb' : LineBuffer)
    (hrun : run_stream parse (LineBuffer.new cap) lines = some (out, lb')) :
    lb'.buffer.length ≤ cap ∧
    ∀ line b, b ∈ add_line_loop_trace parse cap BufferState.Accumulating
        (lb'.buffer ++ [line]) →
      b.length ≤ cap + 1 ∧ (b.length = cap + 1 → b = lb'.buffer ++ [line]) := by
  have h0 : (LineBuffer.new cap).buffer.length ≤ (LineBuffer.new cap).max_lines := by
    simp [LineBuffer.new]
  have hinv := run_stream_inv parse lines (LineBuffer.new cap) out lb' h0 hrun
  have hlen : lb'.buffer.length ≤ cap := hinv.1
  refine ⟨hlen, ?_⟩
  intro line b hb
  have hmem := add_line_loop_trace_mem parse cap BufferState.Accumulating
    (lb'.buffer ++ [line]) b hb
  have hpl : (lb'.buffer ++ [line]).length = lb'.buffer.length + 1 := by simp
  rcases hmem with rfl | hlt
  · exact ⟨by omega, fun _ => rfl⟩
  · exact ⟨by omega, fun hh => by omega⟩

/-- Claim C2: drain always leaves the buffer empty, never returns an
`Incomplete` record, and on an empty buffer returns no records. -/
theorem claim_C2_drain_empties (parse : String → Option J) (lb : LineBuffer) :
    (drain parse lb).2.buffer = [] ∧
    (∀ s, BufferResult.Incomplete s ∉ (drain parse lb).1) ∧
    (drain parse { buffer := [], max_lines := lb.max_lines }).1 = [] := by
  refine ⟨?_, ?_, ?_⟩
  · simp only [drain]
    exact drain_loop_snd_nil parse lb.buffer
  · intro s
    simp only [drain]
    exact drain_loop_no_incomplete parse lb.buffer s
  · simp only [drain]
    rw [drain_loop.eq_1]

/-- Claim C6: on any submit call that does not take the fast path, the
returned records contain an `Incomplete` record iff the final buffer is
non-empty; when present it is unique, last, and its snapshot is exactly
the final buffer contents. -/
theorem claim_C6_trailing_incomplete (parse : String → Option J)
    (lb : LineBuffer) (line : String)
    (hfast : (lb.buffer.isEmpty && !could_be_json_start line) = false)
    (rs : List (BufferResult J)) (lb' : LineBuffer)
    (h : add_line parse lb line = some (rs, lb')) :
    (lb'.buffer = [] ∧ ∀ s, BufferResult.Incomplete s ∉ rs) ∨
    (lb'.buffer ≠ [] ∧ ∃ rs₀, rs = rs₀ ++ [BufferResult.Incomplete lb'.buffer] ∧
      ∀ s, BufferResult.Incomplete s ∉ rs₀) := by
  unfold add_line at h
  rw [hfast] at h
  simp only [Bool.false_eq_true, if_false] at h
  cases hl : add_line_loop parse lb.max_lines BufferState.Accumulating
      (lb.buffer ++ [line]) with
  | none => simp only [hl] at h; cases h
  | some p =>
    obtain ⟨rs0, b⟩ := p
    simp only [hl, Option.some.injEq, Prod.mk.injEq] at h
    obtain ⟨h1, h2⟩ := h
    subst h1
    subst h2
    have hne : lb.buffer ++ [line] ≠ [] := by simp
    exact add_line_loop_incomplete_shape parse lb.max_lines BufferState.Accumulating
      (lb.buffer ++ [line]) hne rs0 b hl

/-- Claim C7: in the Accumulating state, when the whole-buffer parse
fails and the buffer has reached capacity, exactly one line — the oldest
— is evicted as Text and processing continues in the Draining state on
the remaining lines; no second eviction happens in that step. -/
theorem claim_C7_overflow_evicts_one (parse : String → Option J) (cap : Nat)
    (first : String) (rest : List String)
    (hparse : try_parse_buffer_segments parse (first :: rest) = none)
    (hcap : (first :: rest).length ≥ cap) :
    add_line_loop parse cap BufferState.Accumulating (first :: rest) =
      if rest.isEmpty then some ([BufferResult.Text first], [])
      else
        (add_line_loop parse cap BufferState.Draining rest).map
          (fun r => (BufferResult.Text first :: r.1, r.2)) := by
  rw [add_line_loop.eq_2]
  simp only [hparse, if_pos hcap]
  by_cases hre : rest.isEmpty
  · rw [if_pos hre, if_pos hre]
  · rw [if_neg hre, if_neg hre]
    cases h : add_line_loop parse cap BufferState.Draining rest with
    | some p => obtain ⟨rs, b⟩ := p; simp
    | none => simp

/-- Claim C8: the fix-point loop of submit and the while loop of drain
terminate: the buffers observed at successive iterations strictly shrink
in length, and the number of iterations is bounded by the initial buffer
length (plus one for submit's initial iteration). -/
theorem claim_C8_loop_terminates (parse : String → Option J) (cap : Nat)
    (st : BufferState) (buffer : List String) :
    (List.Chain' (fun a b => b.length < a.length)
        (add_line_loop_trace parse cap st buffer) ∧
      (add_line_loop_trace parse cap st buffer).length ≤ buffer.length + 1) ∧
    (List.Chain' (fun a b => b.length < a.length) (drain_loop_trace parse buffer) ∧
      (drain_loop_trace parse buffer).length ≤ buffer.length) :=
  ⟨⟨add_line_loop_trace_chain parse cap st buffer,
    add_line_loop_trace_length parse cap st buffer⟩,
   drain_loop_trace_chain parse buffer,
   drain_loop_trace_length parse buffer⟩

/-- Claim C10: add_line is panic-free for every buffer state and line:
the modelled result is never the `none` that stands for an
out-of-bounds index or removal on an empty buffer. -/
theorem claim_C10_no_panic (parse : String → Option J) (lb : LineBuffer)
    (line : String) : (add_line parse lb line).isSome = true := by
  unfold add_line
  by_cases hc : (lb.buffer.isEmpty && !could_be_json_start line) = true
  · rw [if_pos hc]
    rfl
  · rw [if_neg hc]
    have hs := add_line_loop_isSome parse lb.max_lines BufferState.Accumulating
      (lb.buffer ++ [line]) (by simp)
    cases hl : add_line_loop parse lb.max_lines BufferState.Accumulating
        (lb.buffer ++ [line]) with
    | some p => obtain ⟨rs, b⟩ := p; simp
    | none => rw [hl] at hs; simp at hs

/-- Claim C5: if the buffer is empty and the line is not JSON-like per
the heuristic, submit returns exactly `[Text line]` and the buffer state
is unchanged (nothing is buffered). -/
theorem claim_C5_fast_path (parse : String → Option J) (lb : LineBuffer)
    (line : String) (hbuf : lb.buffer = [])
    (hjson : could_be_json_start line = false) :
    add_line parse lb line = some ([BufferResult.Text line], lb) := by
  unfold add_line
  rw [if_pos]
  simp [hbuf, hjson]

/-- Claim C9: the JSON-start heuristic agrees exactly with the
specification's description: false on whitespace-only lines, otherwise
true iff the trimmed text starts with a double quote, brace, bracket,
one of the literals `true`/`false`/`null`, an ASCII digit, or `-`. -/
theorem isPrefixOf_cons_eq {α : Type} [BEq α] (a : α) (as bs : List α) (b : α) :
    (a :: as).isPrefixOf (b :: bs) = (a == b && as.isPrefixOf bs) := rfl

theorem isPrefixOf_nil_eq {α : Type} [BEq α] (l : List α) :
    ([] : List α).isPrefixOf l = true := by
  cases l <;> rfl

theorem claim_C9_heuristic_agrees (line : String) :
    could_be_json_start line = json_start_spec line := by
  simp only [could_be_json_start, json_start_spec, startsWithPred]
  cases ht : trim_chars line.data with
  | nil => simp
  | cons c cs =>
    simp only [List.isEmpty_cons, Bool.false_eq_true, if_false, startsWithPred]
    have hgroup : ∀ a b c : Bool,
        (if a = true then true else if b = true then true
         else if c = true then true else false) = (a || b || c) := by decide
    rw [hgroup]
    simp [Bool.or_assoc]

/-- Claim C4: the forward scan returns the smallest prefix length in
`1..=length` whose joined lines parse as one JSON value, and returns
nothing exactly when no such prefix parses. -/
theorem claim_C4_forward_scan_minimal (parse : String → Option J)
    (buffer : List String) :
    (∀ v e, try_parse_forward_segments parse buffer = some (v, e) →
      1 ≤ e ∧ e ≤ buffer.length ∧
      parse (String.intercalate "\n" (buffer.take e)) = some v ∧
      ∀ j, 1 ≤ j → j < e →
        parse (String.intercalate "\n" (buffer.take j)) = none) ∧
    (try_parse_forward_segments parse buffer = none →
      ∀ j, 1 ≤ j → j ≤ buffer.length →
        parse (String.intercalate "\n" (buffer.take j)) = none) := by
  constructor
  · intro v e h
    have hb := forward_go_bounds parse buffer buffer.length 1 v e h
    have hs := forward_go_some_spec parse buffer buffer.length 1 v e h
    exact ⟨hb.1, by omega, hs.1, fun j h1 h2 => hs.2 j h1 h2⟩
  · intro h j h1 h2
    exact forward_go_none_spec parse buffer buffer.length 1 h j h1 (by omega)

/-- Claim C3: in the Accumulating state the whole-buffer parse has
priority over eviction — whenever the joined buffer plus new line parses,
submit emits exactly that Json value and clears the buffer, for any
capacity; consequently feeding `"{"`, `"\"a\":1"`, `"}"` and then
flushing yields exactly `[Json v]` for every capacity ≥ 3 (where `v` is
what the external parser returns on the joined text). -/
theorem claim_C3_whole_buffer_priority (parse : String → Option J) :
    (∀ (lb : LineBuffer) (line : String) (v : J),
      (lb.buffer.isEmpty && !could_be_json_start line) = false →
      parse (String.intercalate "\n" (lb.buffer ++ [line])) = some v →
      add_line parse lb line =
        some ([BufferResult.Json v], { buffer := [], max_lines := lb.max_lines })) ∧
    (∀ (cap : Nat) (v : J), 3 ≤ cap →
      parse "\x7b" = none →
      parse "\x7b\n\"a\":1" = none →
      parse "\x7b\n\"a\":1\n\x7d" = some v →
      (process_stream parse cap ["\x7b", "\"a\":1", "\x7d"]).map
          (fun out => out.filter is_final) = some [BufferResult.Json v]) := by
  have hpriority : ∀ (lb : LineBuffer) (line : String) (v : J),
      (lb.buffer.isEmpty && !could_be_json_start line) = false →
      parse (String.intercalate "\n" (lb.buffer ++ [line])) = some v →
      add_line parse lb line =
        some ([BufferResult.Json v], { buffer := [], max_lines := lb.max_lines }) := by
    intro lb line v hfast hp
    unfold add_line
    rw [hfast]
    simp only [Bool.false_eq_true, if_false]
    obtain ⟨f, r, hfr⟩ := List.exists_cons_of_ne_nil
      (show lb.buffer ++ [line] ≠ [] by simp)
    have hb : try_parse_buffer_segments parse (lb.buffer ++ [line]) = some (v, 0) := by
      unfold try_parse_buffer_segments
      rw [hp]
    rw [hfr] at hb ⊢
    rw [add_line_loop.eq_2]
    simp only [hb]
  refine ⟨hpriority, ?_⟩
  intro cap v hcap hp1 hp2 hp3
  have hj1 : could_be_json_start "\x7b" = true := by decide
  have ha1 : add_line parse (LineBuffer.new cap) "\x7b" =
      some ([BufferResult.Incomplete ["\x7b"]],
        { buffer := ["\x7b"], max_lines := cap }) := by
    unfold add_line
    rw [if_neg (by simp [LineBuffer.new, hj1])]
    have hb : (LineBuffer.new cap).buffer ++ ["\x7b"] = ["\x7b"] := rfl
    rw [hb, add_line_loop.eq_2]
    have ht : try_parse_buffer_segments parse ["\x7b"] = none := by
      unfold try_parse_buffer_segments
      rw [show String.intercalate "\n" ["\x7b"] = "\x7b" from rfl, hp1]
    simp only [ht]
    rw [if_neg (by simp [LineBuffer.new]; omega)]
    simp [hj1, LineBuffer.new]
  have ha2 : add_line parse { buffer := ["\x7b"], max_lines := cap } "\"a\":1" =
      some ([BufferResult.Incomplete ["\x7b", "\"a\":1"]],
        { buffer := ["\x7b", "\"a\":1"], max_lines := cap }) := by
    unfold add_line
    rw [if_neg (by simp)]
    have hb : ({ buffer := ["\x7b"], max_lines := cap } : LineBuffer).buffer ++
        ["\"a\":1"] = ["\x7b", "\"a\":1"] := rfl
    rw [hb, add_line_loop.eq_2]
    have ht : try_parse_buffer_segments parse ["\x7b", "\"a\":1"] = none := by
      unfold try_parse_buffer_segments
      rw [show String.intercalate "\n" ["\x7b", "\"a\":1"] = "\x7b\n\"a\":1" from rfl,
        hp2]
    simp only [ht]
    rw [if_neg (by simp; omega)]
  have ha3 : add_line parse { buffer := ["\x7b", "\"a\":1"], max_lines := cap }
      "\x7d" = some ([BufferResult.Json v], { buffer := [], max_lines := cap }) := by
    apply hpriority
    · simp
    · rw [show String.intercalate "\n"
        (({ buffer := ["\x7b", "\"a\":1"], max_lines := cap } : LineBuffer).buffer ++
          ["\x7d"]) = "\x7b\n\"a\":1\n\x7d" from rfl]
      exact hp3
  have hrun : run_stream parse (LineBuffer.new cap) ["\x7b", "\"a\":1", "\x7d"] =
      some ([BufferResult.Incomplete ["\x7b"],
             BufferResult.Incomplete ["\x7b", "\"a\":1"],
             BufferResult.Json v], { buffer := [], max_lines := cap }) := by
    simp only [run_stream, ha1, ha2, ha3]
    rfl
  unfold process_stream
  rw [hrun]
  simp [drain, drain_loop.eq_1, is_final]

theorem claim_C1_capacity_invariant_witness :
    (LineBuffer.new 1).buffer.length ≤ 1 ∧
    ∀ line b, b ∈ add_line_loop_trace parse_none 1 BufferState.Accumulating
        ((LineBuffer.new 1).buffer ++ [line]) →
      b.length ≤ 1 + 1 ∧
      (b.length = 1 + 1 → b = (LineBuffer.new 1).buffer ++ [line]) :=
  claim_C1_capacity_invariant parse_none 1 (by decide) [] [] (LineBuffer.new 1) rfl

theorem claim_C2_drain_empties_witness :
    (drain parse_none (LineBuffer.new 5)).2.buffer = [] ∧
    (∀ s, BufferResult.Incomplete s ∉ (drain parse_none (LineBuffer.new 5)).1) ∧
    (drain parse_none
      { buffer := [], max_lines := (LineBuffer.new 5).max_lines }).1 = [] :=
  claim_C2_drain_empties parse_none (LineBuffer.new 5)

theorem claim_C3_whole_buffer_priority_witness :
    (process_stream parse_abc 3 ["\x7b", "\"a\":1", "\x7d"]).map
        (fun out => out.filter is_final) = some [BufferResult.Json 0] :=
  (claim_C3_whole_buffer_priority parse_abc).2 3 0 (by decide) (by decide)
    (by decide) (by decide)

theorem claim_C4_forward_scan_minimal_witness :
    1 ≤ 1 ∧ 1 ≤ (["x", "y"] : List String).length ∧
    parse_x (String.intercalate "\n" ((["x", "y"] : List String).take 1)) = some 0 ∧
    (∀ j, 1 ≤ j → j < 1 →
      parse_x (String.intercalate "\n" ((["x", "y"] : List String).take j)) = none) :=
  (claim_C4_forward_scan_minimal parse_x ["x", "y"]).1 0 1 (by decide)

theorem claim_C5_fast_path_witness :
    add_line parse_none (LineBuffer.new 10) "hello world" =
      some ([BufferResult.Text "hello world"], LineBuffer.new 10) :=
  claim_C5_fast_path parse_none (LineBuffer.new 10) "hello world" rfl (by decide)

theorem claim_C6_trailing_incomplete_witness :
    ((({ buffer := ["\x7b"], max_lines := 2 } : LineBuffer).buffer = [] ∧
      ∀ s, BufferResult.Incomplete s ∉
        ([BufferResult.Incomplete ["\x7b"]] : List (BufferResult Nat))) ∨
     (({ buffer := ["\x7b"], max_lines := 2 } : LineBuffer).buffer ≠ [] ∧
      ∃ rs₀, ([BufferResult.Incomplete ["\x7b"]] : List (BufferResult Nat)) =
          rs₀ ++ [BufferResult.Incomplete
            ({ buffer := ["\x7b"], max_lines := 2 } : LineBuffer).buffer] ∧
        ∀ s, BufferResult.Incomplete s ∉ rs₀)) :=
  claim_C6_trailing_incomplete parse_none (LineBuffer.new 2) "\x7b" (by decide)
    [BufferResult.Incomplete ["\x7b"]] { buffer := ["\x7b"], max_lines := 2 }
    (by
      unfold add_line
      rw [if_neg (by decide)]
      have h1 : (LineBuffer.new 2).buffer ++ ["\x7b"] = ["\x7b"] := rfl
      rw [h1, add_line_loop.eq_2]
      have h2 : try_parse_buffer_segments parse_none ["\x7b"] = none := rfl
      simp only [h2]
      rw [if_neg (by decide)]
      have h3 : could_be_json_start "\x7b" = true := by decide
      simp [h3, LineBuffer.new])

theorem claim_C7_overflow_evicts_one_witness :
    add_line_loop parse_none 1 BufferState.Accumulating ["x"] =
      if ([] : List String).isEmpty then
        some ([BufferResult.Text "x"], ([] : List String))
      else
        (add_line_loop parse_none 1 BufferState.Draining []).map
          (fun r => (BufferResult.Text "x" :: r.1, r.2)) :=
  claim_C7_overflow_evicts_one parse_none 1 "x" [] rfl (by decide)

theorem claim_C8_loop_terminates_witness :
    (List.Chain' (fun a b => b.length < a.length)
        (add_line_loop_trace parse_none 2 BufferState.Accumulating ["a"]) ∧
      (add_line_loop_trace parse_none 2 BufferState.Accumulating ["a"]).length ≤
        (["a"] : List String).length + 1) ∧
    (List.Chain' (fun a b => b.length < a.length) (drain_loop_trace parse_none ["a"]) ∧
      (drain_loop_trace parse_none ["a"]).length ≤ (["a"] : List String).length) :=
  claim_C8_loop_terminates parse_none 2 BufferState.Accumulating ["a"]

theorem claim_C9_heuristic_agrees_witness :
    could_be_json_start "\x7b" = json_start_spec "\x7b" :=
  claim_C9_heuristic_agrees "\x7b"

theorem claim_C10_no_panic_witness :
    (add_line parse_none (LineBuffer.new 3) "\x7b").isSome = true :=
  claim_C10_no_panic parse_none (LineBuffer.new 3) "\x7b"

end Jlif
